import Mathlib

/-!
Verification of gorm's core data structures against their specification.

The embedding covers `WindowDict` and its underlying `Queue` from
`src/gorm/window.pyx` (with `src/unnamed/part_000` as a pure-Python sibling of
the same module) and `Trique` from `src/gorm/trique.pyx`.

The `past` and `future` queues of a `WindowDict` are doubly-linked lists used
only through append/appendleft/pop/popleft/tail/head, so they are embedded as
Lean `List`s read head-to-tail.  A stored Python value is `Option V`, with
`none` standing for Python `None` (the unset sentinel).  Failures (KeyError,
IndexError, AssertionError) are explicit in the return types.
-/

/-- A recorded (revision, value) pair: the payload of a `QueueEntry` in
window.pyx.  The value is `Option V`; `none` is Python `None`. -/
abbrev Entry (V : Type) := Int × Option V

/-- The revision-windowed map of window.pyx: two queues whose head-to-tail
concatenation is the recorded history. -/
structure WindowDict (V : Type) where
  past : List (Entry V)
  future : List (Entry V)
deriving DecidableEq

/-- The full recorded history of a `WindowDict`: `past` then `future`,
each in head-to-tail order. -/
def WindowDict.hist {V : Type} (d : WindowDict V) : List (Entry V) :=
  d.past ++ d.future

/-- First loop of `WindowDict.seek`: pop `past`'s tail while its revision is
≥ `rev`, prepending each popped entry to `future`; on the first tail revision
< `rev` the popped entry is re-appended and the loop stops, leaving `past` as
it stood.  The first argument list is the `past` queue viewed from its tail
(i.e. reversed), which makes the tail-pop structural. -/
def seekPastLoop {V : Type} (rev : Int) :
    List (Entry V) → List (Entry V) → List (Entry V) × List (Entry V)
  | [], future => ([], future)
  | e :: rp, future =>
    if e.1 < rev then ((e :: rp).reverse, future)
    else seekPastLoop rev rp (e :: future)

/-- Second loop of `WindowDict.seek`: pop `future`'s head while its revision is
≤ `rev`, appending each popped entry to `past`; on the first head revision
> `rev` the popped entry is re-prepended and the loop stops. -/
def seekFutureLoop {V : Type} (rev : Int) :
    List (Entry V) → List (Entry V) → List (Entry V) × List (Entry V)
  | past, [] => (past, [])
  | past, e :: rest =>
    if rev < e.1 then (past, e :: rest)
    else seekFutureLoop rev (past ++ [e]) rest

/-- `WindowDict.seek` from window.pyx: rebalance the `past`/`future` split
around `rev` by the two pop-and-carry loops. -/
def WindowDict.seek {V : Type} (d : WindowDict V) (rev : Int) : WindowDict V :=
  let pf := seekPastLoop rev d.past.reverse d.future
  let pf2 := seekFutureLoop rev pf.1 pf.2
  ⟨pf2.1, pf2.2⟩

/-- A finite sequence of `seek` calls, applied left to right. -/
def WindowDict.seeks {V : Type} : WindowDict V → List Int → WindowDict V
  | d, [] => d
  | d, r :: rs => (d.seek r).seeks rs

/-- Result of `WindowDict.__getitem__`: either the stored value (which may be
the `None` sentinel) or a KeyError. -/
inductive Lookup (V : Type) where
  | found : Option V → Lookup V
  | keyError : Lookup V
deriving DecidableEq

/-- `WindowDict.__getitem__` from window.pyx: `seek(rev)`, then return the value
at `past`'s tail, raising KeyError (via the IndexError of `past[-1]`) when
`past` is empty after seeking.  The receiver is left in the state `d.seek rev`;
only the returned value is modelled here, the state change being `seek` itself. -/
def WindowDict.getitem {V : Type} (d : WindowDict V) (rev : Int) : Lookup V :=
  match (d.seek rev).past.getLast? with
  | some e => .found e.2
  | none => .keyError

/-- `WindowDict.get` from window.pyx: `self[rev]`, with KeyError turned into the
`default` argument (`None` when omitted at a Python call site). -/
def WindowDict.get {V : Type} (d : WindowDict V) (rev : Int) (default : Option V) :
    Option V :=
  match d.getitem rev with
  | .found v => v
  | .keyError => default

/-- `WindowDict.__setitem__` from window.pyx.  On a fully empty map the pair is
first appended to `past` (the code then still falls through to the seek).  After
`seek(rev)`: append if `past` is empty; overwrite the tail entry in place if
`rev` equals the tail revision (`self._past[-1] = (rev, v)`); append if the
check `assert rev > pastrev` passes; the failed assertion is the error case. -/
def WindowDict.setitem {V : Type} (d : WindowDict V) (rev : Int) (v : Option V) :
    Except Unit (WindowDict V) :=
  let d0 := if d.past.isEmpty && d.future.isEmpty then WindowDict.mk [(rev, v)] [] else d
  let d1 := d0.seek rev
  match d1.past.getLast? with
  | none => .ok ⟨d1.past ++ [(rev, v)], d1.future⟩
  | some p =>
    if rev = p.1 then .ok ⟨d1.past.dropLast ++ [(rev, v)], d1.future⟩
    else if p.1 < rev then .ok ⟨d1.past ++ [(rev, v)], d1.future⟩
    else .error ()

/-- The second loop of `WindowDict.__delitem__`: pop `future`'s head; once a
revision ≥ `rev` appears, append the single sentinel entry `(rev, None)` to
`past` and drop the rest of `future`; entries below `rev` are carried back to
`past`.  If no revision ≥ `rev` appears the loop just rebuilds the history. -/
def delFutureLoop {V : Type} (rev : Int) :
    List (Entry V) → List (Entry V) → List (Entry V)
  | past, [] => past
  | past, e :: rest =>
    if rev ≤ e.1 then past ++ [(rev, (none : Option V))]
    else delFutureLoop rev (past ++ [e]) rest

/-- `WindowDict.__delitem__` from window.pyx (the truncate-from operation).  Its
first loop moves all of `past` into `future` by tail-pops and head-prepends,
i.e. `future := past ++ future` with `past := []`; then `delFutureLoop` runs. -/
def WindowDict.delitem {V : Type} (d : WindowDict V) (rev : Int) : WindowDict V :=
  ⟨delFutureLoop rev [] (d.past ++ d.future), []⟩

/-- `WindowDict.rev_before` from window.pyx: `seek(rev)`, then `past`'s tail
revision, KeyError when `past` is empty. -/
def WindowDict.rev_before {V : Type} (d : WindowDict V) (rev : Int) : Except Unit Int :=
  match (d.seek rev).past.getLast? with
  | none => .error ()
  | some e => .ok e.1

/-- `WindowDict.rev_after` from window.pyx: `seek(rev)`, then `future`'s head
revision when `future` is non-empty, and `None` otherwise (the function falls
off its end; its docstring documents the `None`). -/
def WindowDict.rev_after {V : Type} (d : WindowDict V) (rev : Int) : Option Int :=
  match (d.seek rev).future.head? with
  | some e => some e.1
  | none => none

/-- Specification-side lookup, following the spec's words: the value of the
recorded entry with the greatest revision ≤ `rev`, or NotFound when no such
entry exists.  With the ascending-history invariant, the last entry of the
history that satisfies `revision ≤ rev` is the one with the greatest such
revision. -/
def specGet {V : Type} (h : List (Entry V)) (rev : Int) : Lookup V :=
  match (h.filter (fun e => decide (e.1 ≤ rev))).getLast? with
  | some e => .found e.2
  | none => .keyError

/-- Invariant I1 of the spec: the recorded revisions are strictly ascending. -/
abbrev AscRevs {V : Type} (l : List (Entry V)) : Prop :=
  l.Pairwise (fun a b => a.1 < b.1)

/-- Weak (non-strict) form of the ordering invariant, enough for the seek
characterisation. -/
abbrev LeRevs {V : Type} (l : List (Entry V)) : Prop :=
  l.Pairwise (fun a b => a.1 ≤ b.1)

theorem AscRevs.leRevs {V : Type} {l : List (Entry V)} (h : AscRevs l) : LeRevs l :=
  h.imp (fun hab => le_of_lt hab)

theorem head?_mem {α : Type _} : ∀ {l : List α} {a : α}, l.head? = some a → a ∈ l
  | b :: _, _, h => by
    rw [List.head?_cons, Option.some.injEq] at h
    exact h ▸ List.mem_cons_self b _

theorem getLast?_mem {α : Type _} {l : List α} {a : α} (h : l.getLast? = some a) :
    a ∈ l := by
  have : l.reverse.head? = some a := by rw [List.head?_reverse]; exact h
  exact List.mem_reverse.mp (head?_mem this)

/-- Every element surviving `dropWhile` of a downward-closed revision predicate
violates that predicate, given ≤-sorted revisions: once the scan stops, the
sortedness pushes the failure to the whole suffix. -/
theorem dropWhile_all_not {V : Type} (P : Int → Prop) [DecidablePred P]
    (hdc : ∀ a b : Int, a ≤ b → P b → P a) :
    ∀ {l : List (Entry V)}, LeRevs l →
      ∀ e ∈ l.dropWhile (fun e => decide (P e.1)), ¬ P e.1 := by
  intro l
  induction l with
  | nil => intro _ e he; simp [List.dropWhile] at he
  | cons a l ih =>
    intro h0 e he
    have h : (∀ b ∈ l, a.1 ≤ b.1) ∧ LeRevs l := List.pairwise_cons.mp h0
    rw [List.dropWhile_cons] at he
    by_cases hPa : P a.1
    · rw [if_pos (by simpa using hPa)] at he
      exact ih h.2 e he
    · rw [if_neg (by simpa using hPa)] at he
      rcases List.mem_cons.mp he with rfl | hel
      · exact hPa
      · exact fun hPe => hPa (hdc a.1 e.1 (h.1 e hel) hPe)

/-- `takeWhile` passes over a prefix that satisfies the predicate everywhere. -/
theorem takeWhile_append_all {α : Type _} (p : α → Bool) :
    ∀ (xs ys : List α), (∀ x ∈ xs, p x = true) →
      (xs ++ ys).takeWhile p = xs ++ ys.takeWhile p := by
  intro xs ys h
  induction xs with
  | nil => simp
  | cons a xs ih =>
    have ha : p a = true := h a (by simp)
    simp only [List.cons_append, List.takeWhile_cons, ha, if_true]
    rw [ih (fun x hx => h x (by simp [hx]))]

/-- `dropWhile` discards a prefix that satisfies the predicate everywhere. -/
theorem dropWhile_append_all {α : Type _} (p : α → Bool) :
    ∀ (xs ys : List α), (∀ x ∈ xs, p x = true) →
      (xs ++ ys).dropWhile p = ys.dropWhile p := by
  intro xs ys h
  induction xs with
  | nil => simp
  | cons a xs ih =>
    have ha : p a = true := h a (by simp)
    simp only [List.cons_append, List.dropWhile_cons, ha, if_true]
    exact ih (fun x hx => h x (by simp [hx]))

/-- Behaviour of the first seek loop on a past queue split as `A ++ B` where the
whole suffix `B` is at or above `rev` and `A`'s tail (if any) is below: the loop
carries exactly `B` over to the front of `future`.  The loop consumes the
reversed past, so the statement is phrased over `B.reverse ++ A.reverse`. -/
theorem seekPastLoop_spec {V : Type} (rev : Int) :
    ∀ (Brev A fut : List (Entry V)),
      (∀ e ∈ Brev, rev ≤ e.1) →
      (∀ e, A.getLast? = some e → e.1 < rev) →
      seekPastLoop rev (Brev ++ A.reverse) fut = (A, Brev.reverse ++ fut) := by
  intro Brev
  induction Brev with
  | nil =>
    intro A fut _ hA
    match hAr : A.reverse with
    | [] =>
      have : A = [] := by simpa using congrArg List.reverse hAr.symm
      subst this
      simp [seekPastLoop]
    | e :: rest =>
      have hlast : A.getLast? = some e := by
        rw [← List.head?_reverse, hAr]; rfl
      have he : e.1 < rev := hA e hlast
      have : (e :: rest).reverse = A := by
        rw [← hAr, List.reverse_reverse]
      simp [seekPastLoop, hAr, he, this]
  | cons b Brev ih =>
    intro A fut hB hA
    have hb : ¬ b.1 < rev := not_lt.mpr (hB b (by simp))
    simp only [List.cons_append, seekPastLoop, if_neg hb]
    show seekPastLoop rev (Brev ++ A.reverse) (b :: fut) = (A, (b :: Brev).reverse ++ fut)
    rw [ih A (b :: fut) (fun e he => hB e (by simp [he])) hA]
    simp

/-- Behaviour of the second seek loop on a future queue split as `C ++ D` where
all of `C` is at or below `rev` and `D`'s head (if any) is above: the loop
carries exactly `C` onto the end of `past`. -/
theorem seekFutureLoop_spec {V : Type} (rev : Int) :
    ∀ (C past D : List (Entry V)),
      (∀ e ∈ C, e.1 ≤ rev) →
      (∀ e, D.head? = some e → rev < e.1) →
      seekFutureLoop rev past (C ++ D) = (past ++ C, D) := by
  intro C
  induction C with
  | nil =>
    intro past D _ hD
    match D with
    | [] => simp [seekFutureLoop]
    | e :: rest =>
      have he : rev < e.1 := hD e rfl
      simp [seekFutureLoop, he]
  | cons c C ih =>
    intro past D hC hD
    have hc : ¬ rev < c.1 := not_lt.mpr (hC c (by simp))
    simp only [List.cons_append, seekFutureLoop, if_neg hc]
    show seekFutureLoop rev (past ++ [c]) (C ++ D) = (past ++ c :: C, D)
    rw [ih (past ++ [c]) D (fun e he => hC e (by simp [he])) hD]
    simp

/-- Main characterisation of `seek` on a ≤-sorted history: the result is exactly
the split of the (unchanged) history at `rev`, with every entry of revision
≤ `rev` in `past` and the rest in `future`. -/
theorem WindowDict.seek_eq {V : Type} (d : WindowDict V) (rev : Int)
    (h : LeRevs d.hist) :
    d.seek rev = ⟨d.hist.takeWhile (fun e => decide (e.1 ≤ rev)),
                  d.hist.dropWhile (fun e => decide (e.1 ≤ rev))⟩ := by
  have hpast : LeRevs d.past := (List.pairwise_append.mp h).1
  obtain ⟨A, hA⟩ : ∃ A, A = d.past.takeWhile (fun e => decide (e.1 < rev)) := ⟨_, rfl⟩
  obtain ⟨B, hB⟩ : ∃ B, B = d.past.dropWhile (fun e => decide (e.1 < rev)) := ⟨_, rfl⟩
  have hAB : A ++ B = d.past := by
    rw [hA, hB]; exact List.takeWhile_append_dropWhile _ _
  -- the first loop moves exactly B to the front of future
  have hBall : ∀ e ∈ B, rev ≤ e.1 := by
    intro e he
    have := dropWhile_all_not (V := V) (fun x => x < rev)
      (fun a b hab hb => lt_of_le_of_lt hab hb) hpast e (hB ▸ he)
    exact not_lt.mp this
  have hAlast : ∀ e, A.getLast? = some e → e.1 < rev := by
    intro e he
    have hmem : e ∈ A := getLast?_mem he
    have := List.mem_takeWhile_imp (hA ▸ hmem)
    simpa using this
  have hrev : B.reverse ++ A.reverse = d.past.reverse := by
    rw [← List.reverse_append, hAB]
  have hloop1 : seekPastLoop rev d.past.reverse d.future = (A, B ++ d.future) := by
    rw [← hrev, seekPastLoop_spec rev B.reverse A d.future
      (fun e he => hBall e (List.mem_reverse.mp he)) hAlast]
    simp
  -- the second loop moves the ≤-rev prefix of (B ++ future) back to past
  have hhist : d.hist = A ++ (B ++ d.future) := by
    unfold WindowDict.hist
    rw [← hAB, List.append_assoc]
  have hBF : LeRevs (B ++ d.future) := (List.pairwise_append.mp (hhist ▸ h)).2.1
  obtain ⟨C, hC⟩ : ∃ C, C = (B ++ d.future).takeWhile (fun e => decide (e.1 ≤ rev)) :=
    ⟨_, rfl⟩
  obtain ⟨D, hD⟩ : ∃ D, D = (B ++ d.future).dropWhile (fun e => decide (e.1 ≤ rev)) :=
    ⟨_, rfl⟩
  have hCD : C ++ D = B ++ d.future := by
    rw [hC, hD]; exact List.takeWhile_append_dropWhile _ _
  have hCall : ∀ e ∈ C, e.1 ≤ rev := by
    intro e he
    have := List.mem_takeWhile_imp (hC ▸ he)
    simpa using this
  have hDall : ∀ e ∈ D, rev < e.1 := by
    intro e he
    have := dropWhile_all_not (V := V) (fun x => x ≤ rev)
      (fun a b hab hb => le_trans hab hb) hBF e (hD ▸ he)
    exact not_le.mp this
  have hloop2 : seekFutureLoop rev A (B ++ d.future) = (A ++ C, D) := by
    rw [← hCD, seekFutureLoop_spec rev C A D hCall
      (fun e he => hDall e (head?_mem he))]
  -- assemble, and rewrite the split in terms of the whole history
  have hAall2 : ∀ x ∈ A, (fun e : Entry V => decide (e.1 ≤ rev)) x = true := by
    intro x hx
    have := List.mem_takeWhile_imp (hA ▸ hx)
    simp only [decide_eq_true_eq] at this
    simp [le_of_lt this]
  have htake : d.hist.takeWhile (fun e => decide (e.1 ≤ rev)) = A ++ C := by
    rw [hhist, takeWhile_append_all _ A (B ++ d.future) hAall2, hC]
  have hdrop : d.hist.dropWhile (fun e => decide (e.1 ≤ rev)) = D := by
    rw [hhist, dropWhile_append_all _ A (B ++ d.future) hAall2, hD]
  show (⟨(seekFutureLoop rev (seekPastLoop rev d.past.reverse d.future).1
      (seekPastLoop rev d.past.reverse d.future).2).1,
      (seekFutureLoop rev (seekPastLoop rev d.past.reverse d.future).1
      (seekPastLoop rev d.past.reverse d.future).2).2⟩ : WindowDict V) = _
  rw [hloop1]
  simp only [hloop2, htake, hdrop]

/-- `seek` never reorders, drops or duplicates entries: the history is the
seek-invariant content of the map. -/
theorem WindowDict.hist_seek {V : Type} (d : WindowDict V) (rev : Int)
    (h : LeRevs d.hist) : (d.seek rev).hist = d.hist := by
  rw [d.seek_eq rev h]
  unfold WindowDict.hist
  exact List.takeWhile_append_dropWhile _ _

/-- On a ≤-sorted history, filtering by `revision ≤ rev` is the same as taking
the initial run of such revisions. -/
theorem filter_le_eq_takeWhile {V : Type} (rev : Int) (l : List (Entry V))
    (h : LeRevs l) :
    l.filter (fun e => decide (e.1 ≤ rev)) = l.takeWhile (fun e => decide (e.1 ≤ rev)) := by
  conv_lhs => rw [← List.takeWhile_append_dropWhile (fun e : Entry V => decide (e.1 ≤ rev)) l]
  rw [List.filter_append]
  have h1 : (l.takeWhile (fun e => decide (e.1 ≤ rev))).filter
      (fun e => decide (e.1 ≤ rev)) = l.takeWhile (fun e => decide (e.1 ≤ rev)) := by
    apply List.filter_eq_self.mpr
    intro a ha
    have hp := List.mem_takeWhile_imp ha
    exact hp
  have h2 : (l.dropWhile (fun e => decide (e.1 ≤ rev))).filter
      (fun e => decide (e.1 ≤ rev)) = [] := by
    refine List.filter_eq_nil_iff.mpr ?_
    intro a ha
    have := dropWhile_all_not (V := V) (fun x => x ≤ rev)
      (fun a b hab hb => le_trans hab hb) h a ha
    simpa using this
  rw [h1, h2, List.append_nil]

/-- The keyed read of a ≤-sorted map equals the spec-side lookup on its
history: the value of the entry with the greatest recorded revision ≤ `rev`. -/
theorem WindowDict.getitem_eq_specGet {V : Type} (d : WindowDict V) (rev : Int)
    (h : LeRevs d.hist) : d.getitem rev = specGet d.hist rev := by
  unfold WindowDict.getitem specGet
  rw [d.seek_eq rev h, filter_le_eq_takeWhile rev d.hist h]

/-- A whole sequence of seeks leaves the history unchanged. -/
theorem WindowDict.seeks_hist {V : Type} :
    ∀ (rs : List Int) (d : WindowDict V), LeRevs d.hist → (d.seeks rs).hist = d.hist
  | [], d, _ => rfl
  | r :: rs, d, h => by
    show ((d.seek r).seeks rs).hist = d.hist
    have hs := d.hist_seek r h
    rw [WindowDict.seeks_hist rs (d.seek r) (hs ▸ h), hs]

/-- C1: for every revision-windowed map (with the strictly ascending history
invariant) and every revision `rev`, the keyed lookup returns the value of the
recorded entry with the greatest revision ≤ `rev`, and KeyError when no
recorded revision ≤ `rev` exists; and the result is the same after any prior
sequence of `seek` calls, in any order. -/
theorem getitem_greatest_le {V : Type} (d : WindowDict V) (rs : List Int) (rev : Int)
    (h : AscRevs d.hist) :
    (d.seeks rs).getitem rev = specGet d.hist rev := by
  have hle := h.leRevs
  have hh := WindowDict.seeks_hist rs d hle
  rw [WindowDict.getitem_eq_specGet (d.seeks rs) rev (by rw [hh]; exact hle), hh]

/-- Witness for C1: on history {5 ↦ a, 10 ↦ b} split across past/future, after
seeking 12 then 3, reading revision 7 still returns the spec-side answer. -/
theorem getitem_greatest_le_witness :
    ((⟨[(5, some 0)], [(10, some 1)]⟩ : WindowDict Nat).seeks [12, 3]).getitem 7 =
      specGet (WindowDict.mk [(5, some 0)] [(10, some 1)] : WindowDict Nat).hist 7 :=
  getitem_greatest_le (⟨[(5, some 0)], [(10, some 1)]⟩ : WindowDict Nat) [12, 3] 7
    (by decide)

/-- C2: after `seek(rev)` on a strictly ascending history, every entry of
`past` has revision ≤ `rev`, every entry of `future` has revision > `rev`, and
the concatenated history `past ++ future` is exactly the sequence it was before
the seek — nothing reordered, dropped or duplicated. -/
theorem seek_window_correct {V : Type} (d : WindowDict V) (rev : Int)
    (h : AscRevs d.hist) :
    (∀ e ∈ (d.seek rev).past, e.1 ≤ rev) ∧
    (∀ e ∈ (d.seek rev).future, rev < e.1) ∧
    (d.seek rev).past ++ (d.seek rev).future = d.past ++ d.future := by
  have hle := h.leRevs
  have hs := d.seek_eq rev hle
  have hpast : (d.seek rev).past = d.hist.takeWhile (fun e => decide (e.1 ≤ rev)) := by
    rw [hs]
  have hfut : (d.seek rev).future = d.hist.dropWhile (fun e => decide (e.1 ≤ rev)) := by
    rw [hs]
  refine ⟨?_, ?_, ?_⟩
  · intro e he
    rw [hpast] at he
    have hp := List.mem_takeWhile_imp he
    simpa using hp
  · intro e he
    rw [hfut] at he
    have := dropWhile_all_not (V := V) (fun x => x ≤ rev)
      (fun a b hab hb => le_trans hab hb) hle e he
    exact not_le.mp this
  · rw [hpast, hfut]
    exact List.takeWhile_append_dropWhile _ _

/-- Witness for C2 at history {1 ↦ a} · {3 ↦ b} and `seek 2`. -/
theorem seek_window_correct_witness :
    (∀ e ∈ ((⟨[(1, some 0)], [(3, some 1)]⟩ : WindowDict Nat).seek 2).past, e.1 ≤ 2) ∧
    (∀ e ∈ ((⟨[(1, some 0)], [(3, some 1)]⟩ : WindowDict Nat).seek 2).future, 2 < e.1) ∧
    ((⟨[(1, some 0)], [(3, some 1)]⟩ : WindowDict Nat).seek 2).past ++
      ((⟨[(1, some 0)], [(3, some 1)]⟩ : WindowDict Nat).seek 2).future =
      [(1, some 0)] ++ [(3, some 1)] :=
  seek_window_correct (⟨[(1, some 0)], [(3, some 1)]⟩ : WindowDict Nat) 2 (by decide)

/-- When some entry at or above `rev` is present, the `__delitem__` loop keeps
exactly the strict prefix below `rev` and replaces everything from the first
such entry on with the single sentinel `(rev, None)`. -/
theorem delFutureLoop_hits {V : Type} (rev : Int) :
    ∀ (l acc : List (Entry V)), (∃ e ∈ l, rev ≤ e.1) →
      delFutureLoop rev acc l =
        acc ++ l.takeWhile (fun e => decide (e.1 < rev)) ++ [(rev, none)] := by
  intro l
  induction l with
  | nil => intro acc hex; simp at hex
  | cons a l ih =>
    intro acc hex
    by_cases ha : rev ≤ a.1
    · have hna : ¬ a.1 < rev := not_lt.mpr ha
      simp [delFutureLoop, ha, List.takeWhile_cons, hna]
    · have ha' : a.1 < rev := not_le.mp ha
      have hex' : ∃ e ∈ l, rev ≤ e.1 := by
        rcases hex with ⟨e, he, hre⟩
        rcases List.mem_cons.mp he with rfl | hel
        · exact absurd hre ha
        · exact ⟨e, hel, hre⟩
      simp only [delFutureLoop, if_neg ha]
      rw [ih (acc ++ [a]) hex']
      simp [List.takeWhile_cons, ha']

/-- When every recorded entry is strictly below `rev`, the `__delitem__` loop
rebuilds the history unchanged and never writes the sentinel. -/
theorem delFutureLoop_misses {V : Type} (rev : Int) :
    ∀ (l acc : List (Entry V)), (∀ e ∈ l, e.1 < rev) →
      delFutureLoop rev acc l = acc ++ l := by
  intro l
  induction l with
  | nil => intro acc _; simp [delFutureLoop]
  | cons a l ih =>
    intro acc hall
    have ha : ¬ rev ≤ a.1 := not_le.mpr (hall a (by simp))
    simp only [delFutureLoop, if_neg ha]
    rw [ih (acc ++ [a]) (fun e he => hall e (by simp [he]))]
    simp

/-- History of the map after `truncate_from`, in the case where some recorded
revision is ≥ `rev`. -/
theorem WindowDict.delitem_hist {V : Type} (d : WindowDict V) (rev : Int)
    (hex : ∃ e ∈ d.hist, rev ≤ e.1) :
    (d.delitem rev).hist =
      d.hist.takeWhile (fun e => decide (e.1 < rev)) ++ [(rev, none)] := by
  unfold WindowDict.delitem WindowDict.hist
  rw [delFutureLoop_hits rev (d.past ++ d.future) [] hex]
  simp [WindowDict.hist] at hex ⊢

/-- `truncate_from` preserves the strictly-ascending invariant (in the sentinel
case). -/
theorem WindowDict.delitem_asc {V : Type} (d : WindowDict V) (rev : Int)
    (h : AscRevs d.hist) (hex : ∃ e ∈ d.hist, rev ≤ e.1) :
    AscRevs (d.delitem rev).hist := by
  rw [d.delitem_hist rev hex]
  refine List.pairwise_append.mpr ⟨?_, List.pairwise_singleton _ _, ?_⟩
  · exact List.Pairwise.sublist (List.takeWhile_sublist _) h
  · intro a ha b hb
    rcases List.mem_singleton.mp hb with rfl
    have hp := List.mem_takeWhile_imp ha
    simpa using hp

/-- Counterexample to C3 as stated: on the map {1 ↦ a} (strictly ascending
history) `truncate_from 5` finds no recorded revision ≥ 5, so the loop never
writes the sentinel; the map is left unchanged and `get(5)` still returns the
old value `a` rather than the unset sentinel. -/
theorem truncate_from_counterexample :
    ((⟨[(1, some 0)], []⟩ : WindowDict Nat).delitem 5).getitem 5 = .found (some 0) ∧
    ((⟨[(1, some 0)], []⟩ : WindowDict Nat).delitem 5).getitem 5 ≠ Lookup.found none :=
  ⟨rfl, by decide⟩

/-- C3 (amended): provided some recorded revision is ≥ `rev` (otherwise
`__delitem__` leaves the map unchanged and writes no sentinel), after
`truncate_from(rev)`: reading `rev` returns the unset sentinel, reading any
`r > rev` returns the unset sentinel, and reading any `r < rev` returns
exactly what it returned before the truncation. -/
theorem truncate_from_spec {V : Type} (d : WindowDict V) (rev r : Int)
    (h : AscRevs d.hist) (hex : ∃ e ∈ d.hist, rev ≤ e.1) :
    (d.delitem rev).getitem rev = .found none ∧
    (rev < r → (d.delitem rev).getitem r = .found none) ∧
    (r < rev → (d.delitem rev).getitem r = d.getitem r) := by
  have hasc' := d.delitem_asc rev h hex
  have hle' := hasc'.leRevs
  have hh := d.delitem_hist rev hex
  have hkey : ∀ s : Int, rev ≤ s → (d.delitem rev).getitem s = .found none := by
    intro s hs
    rw [WindowDict.getitem_eq_specGet _ s hle', hh]
    unfold specGet
    have hfull : (d.hist.takeWhile (fun e => decide (e.1 < rev)) ++
        [((rev : Int), (none : Option V))]).filter (fun e => decide (e.1 ≤ s)) =
        d.hist.takeWhile (fun e => decide (e.1 < rev)) ++ [(rev, none)] := by
      apply List.filter_eq_self.mpr
      intro a ha
      rcases List.mem_append.mp ha with hta | hsa
      · have hp := List.mem_takeWhile_imp hta
        simp only [decide_eq_true_eq] at hp
        simp [le_of_lt (lt_of_lt_of_le hp hs)]
      · rcases List.mem_singleton.mp hsa with rfl
        simp [hs]
    rw [hfull, List.getLast?_concat]
  refine ⟨hkey rev le_rfl, fun hr => hkey r (le_of_lt hr), ?_⟩
  intro hr
  rw [WindowDict.getitem_eq_specGet _ r hle', hh,
      WindowDict.getitem_eq_specGet d r h.leRevs]
  unfold specGet
  have hsent : ([((rev : Int), (none : Option V))] : List (Entry V)).filter
      (fun e => decide (e.1 ≤ r)) = [] := by
    simp [not_le.mpr hr]
  have hdropnil : (d.hist.dropWhile (fun e => decide (e.1 < rev))).filter
      (fun e => decide (e.1 ≤ r)) = [] := by
    apply List.filter_eq_nil_iff.mpr
    intro a ha
    have hnot := dropWhile_all_not (V := V) (fun x => x < rev)
      (fun a b hab hb => lt_of_le_of_lt hab hb) h.leRevs a ha
    have hge : rev ≤ a.1 := not_lt.mp hnot
    simp [not_le.mpr (lt_of_lt_of_le hr hge)]
  have hsplit : d.hist.filter (fun e => decide (e.1 ≤ r)) =
      (d.hist.takeWhile (fun e => decide (e.1 < rev))).filter
        (fun e => decide (e.1 ≤ r)) := by
    conv_lhs =>
      rw [← List.takeWhile_append_dropWhile (fun e : Entry V => decide (e.1 < rev)) d.hist]
    rw [List.filter_append, hdropnil, List.append_nil]
  rw [List.filter_append, hsent, List.append_nil, ← hsplit]

/-- Witness for C3 (amended) on {5 ↦ a, 10 ↦ b}, truncating from 8 and reading
back revision 7. -/
theorem truncate_from_spec_witness :
    ((⟨[(5, some 0), (10, some 1)], []⟩ : WindowDict Nat).delitem 8).getitem 8 =
        .found none ∧
    (8 < (7 : Int) →
      ((⟨[(5, some 0), (10, some 1)], []⟩ : WindowDict Nat).delitem 8).getitem 7 =
        .found none) ∧
    ((7 : Int) < 8 →
      ((⟨[(5, some 0), (10, some 1)], []⟩ : WindowDict Nat).delitem 8).getitem 7 =
        (⟨[(5, some 0), (10, some 1)], []⟩ : WindowDict Nat).getitem 7) :=
  truncate_from_spec (⟨[(5, some 0), (10, some 1)], []⟩ : WindowDict Nat) 8 7
    (by decide) (by decide)

/-- `__setitem__` on a completely empty map: the pair is appended, and the
subsequent seek and tail-overwrite leave exactly that single entry. -/
theorem setitem_empty {V : Type} (d : WindowDict V) (rev : Int) (v : Option V)
    (he : d.hist = []) : d.setitem rev v = .ok ⟨[(rev, v)], []⟩ := by
  obtain ⟨p, f⟩ := d
  obtain ⟨hp, hf⟩ := List.append_eq_nil.mp he
  subst hp
  subst hf
  simp [WindowDict.setitem, WindowDict.seek, seekPastLoop, seekFutureLoop, lt_irrefl]

/-- `__setitem__` on a non-empty map reduces to the dispatch on the seek
result: the initial emptiness test fails and the map enters the seek as-is. -/
theorem setitem_of_ne {V : Type} (d : WindowDict V) (rev : Int) (v : Option V)
    (hne : d.hist ≠ []) :
    d.setitem rev v =
      match (d.seek rev).past.getLast? with
      | none => .ok ⟨(d.seek rev).past ++ [(rev, v)], (d.seek rev).future⟩
      | some p =>
        if rev = p.1 then
          .ok ⟨(d.seek rev).past.dropLast ++ [(rev, v)], (d.seek rev).future⟩
        else if p.1 < rev then
          .ok ⟨(d.seek rev).past ++ [(rev, v)], (d.seek rev).future⟩
        else .error () := by
  have hpf : ¬(d.past = [] ∧ d.future = []) := by
    rintro ⟨h1, h2⟩
    exact hne (by simp [WindowDict.hist, h1, h2])
  have hb : (d.past.isEmpty && d.future.isEmpty) = false := by
    cases hp : d.past with
    | nil =>
      cases hf : d.future with
      | nil => exact absurd ⟨hp, hf⟩ hpf
      | cons b m => simp
    | cons a l => simp
  unfold WindowDict.setitem
  simp only [hb, Bool.false_eq_true, if_false]

/-- C4: behaviour of `set(rev, v)` on a map with strictly ascending history.
On a completely empty map the result is exactly the single entry `(rev, v)`;
otherwise, after the internal seek: an empty `past` gets the new entry
appended; `rev` equal to `past`'s tail revision overwrites that entry in place;
`rev` strictly greater appends; `rev` strictly less than the tail revision
fails fast (the `assert rev > pastrev` — a state the seek in fact never
produces, so the conjunct is about the dispatch of the code). -/
theorem setitem_cases {V : Type} (d : WindowDict V) (rev : Int) (v : Option V)
    (h : AscRevs d.hist) :
    (d.hist = [] → d.setitem rev v = .ok ⟨[(rev, v)], []⟩) ∧
    (d.hist ≠ [] → (d.seek rev).past = [] →
        d.setitem rev v = .ok ⟨[(rev, v)], (d.seek rev).future⟩) ∧
    (∀ p, d.hist ≠ [] → (d.seek rev).past.getLast? = some p →
        (rev = p.1 → d.setitem rev v =
            .ok ⟨(d.seek rev).past.dropLast ++ [(rev, v)], (d.seek rev).future⟩) ∧
        (p.1 < rev → d.setitem rev v =
            .ok ⟨(d.seek rev).past ++ [(rev, v)], (d.seek rev).future⟩) ∧
        (rev < p.1 → d.setitem rev v = .error ())) := by
  refine ⟨fun he => setitem_empty d rev v he, ?_, ?_⟩
  · intro hne hp
    rw [setitem_of_ne d rev v hne, hp]
    rfl
  · intro p hne hp
    rw [setitem_of_ne d rev v hne, hp]
    refine ⟨fun heq => ?_, fun hlt => ?_, fun hgt => ?_⟩
    · simp only [if_pos heq]
    · simp only [if_neg (ne_of_gt hlt), if_pos hlt]
    · simp only [if_neg (ne_of_lt hgt), if_neg (not_lt.mpr (le_of_lt hgt))]

/-- Witness for C4 at the map {1 ↦ a} and `set(2, b)`. -/
theorem setitem_cases_witness :
    ((⟨[(1, some 0)], []⟩ : WindowDict Nat).hist = [] →
      (⟨[(1, some 0)], []⟩ : WindowDict Nat).setitem 2 (some 1) = .ok ⟨[(2, some 1)], []⟩) ∧
    ((⟨[(1, some 0)], []⟩ : WindowDict Nat).hist ≠ [] →
      ((⟨[(1, some 0)], []⟩ : WindowDict Nat).seek 2).past = [] →
      (⟨[(1, some 0)], []⟩ : WindowDict Nat).setitem 2 (some 1) =
        .ok ⟨[(2, some 1)], ((⟨[(1, some 0)], []⟩ : WindowDict Nat).seek 2).future⟩) ∧
    (∀ p, (⟨[(1, some 0)], []⟩ : WindowDict Nat).hist ≠ [] →
      ((⟨[(1, some 0)], []⟩ : WindowDict Nat).seek 2).past.getLast? = some p →
      ((2 : Int) = p.1 → (⟨[(1, some 0)], []⟩ : WindowDict Nat).setitem 2 (some 1) =
        .ok ⟨((⟨[(1, some 0)], []⟩ : WindowDict Nat).seek 2).past.dropLast ++ [(2, some 1)],
             ((⟨[(1, some 0)], []⟩ : WindowDict Nat).seek 2).future⟩) ∧
      (p.1 < 2 → (⟨[(1, some 0)], []⟩ : WindowDict Nat).setitem 2 (some 1) =
        .ok ⟨((⟨[(1, some 0)], []⟩ : WindowDict Nat).seek 2).past ++ [(2, some 1)],
             ((⟨[(1, some 0)], []⟩ : WindowDict Nat).seek 2).future⟩) ∧
      ((2 : Int) < p.1 → (⟨[(1, some 0)], []⟩ : WindowDict Nat).setitem 2 (some 1) =
        .error ())) :=
  setitem_cases (⟨[(1, some 0)], []⟩ : WindowDict Nat) 2 (some 1) (by decide)

/-- C10: the convenience read `get(rev, default)` returns its `default`
argument whenever no recorded revision ≤ `rev` exists, instead of raising
KeyError; and when the most recent entry ≤ `rev` stores the `None` sentinel,
`get` with the omitted default (`None`) also returns `None` — the two
situations are indistinguishable to such a caller. -/
theorem get_default_semantics {V : Type} (d : WindowDict V) (rev : Int)
    (default : Option V) (h : AscRevs d.hist) :
    (d.hist.filter (fun e => decide (e.1 ≤ rev)) = [] → d.get rev default = default) ∧
    (∀ e, (d.hist.filter (fun e => decide (e.1 ≤ rev))).getLast? = some e →
        e.2 = none → d.get rev none = none) := by
  have hle := h.leRevs
  constructor
  · intro hnil
    unfold WindowDict.get
    rw [WindowDict.getitem_eq_specGet d rev hle]
    unfold specGet
    rw [hnil]
    rfl
  · intro e hlast hnone
    unfold WindowDict.get
    rw [WindowDict.getitem_eq_specGet d rev hle]
    unfold specGet
    rw [hlast]
    show e.2 = none
    exact hnone

/-- Witness for C10 at the map {5 ↦ a} read at revision 3 (nothing recorded at
or before 3) with default b. -/
theorem get_default_semantics_witness :
    ((⟨[(5, some 0)], []⟩ : WindowDict Nat).hist.filter (fun e => decide (e.1 ≤ 3)) = [] →
      (⟨[(5, some 0)], []⟩ : WindowDict Nat).get 3 (some 7) = some 7) ∧
    (∀ e, ((⟨[(5, some 0)], []⟩ : WindowDict Nat).hist.filter
        (fun e => decide (e.1 ≤ 3))).getLast? = some e →
      e.2 = none → (⟨[(5, some 0)], []⟩ : WindowDict Nat).get 3 none = none) :=
  get_default_semantics (⟨[(5, some 0)], []⟩ : WindowDict Nat) 3 (some 7) (by decide)

/-- The pairwise loop of `WindowDict.__richcmp__` (op == 2) from window.pyx:
both concatenated histories are walked in lock step and each pair of nodes is
compared with `myrec != yourrec`.  `QueueEntry` defines no `__richcmp__`, so
that comparison is Python's default object identity, abstracted here as the
`eqNode` parameter. -/
def richcmpEqLoop {α : Type _} (eqNode : α → α → Bool) : List α → List α → Bool
  | [], ys => ys.isEmpty
  | _ :: _, [] => false
  | x :: xs, y :: ys => eqNode x y && richcmpEqLoop eqNode xs ys

/-- `__richcmp__` equality between two separately constructed maps: none of
their `QueueEntry` nodes are shared, so the identity comparison is false on
every pair of nodes. -/
def WindowDict.richcmpEqDistinct {V : Type} (d1 d2 : WindowDict V) : Bool :=
  richcmpEqLoop (fun _ _ => false) d1.hist d2.hist

/-- C9-adjacent evaluation for C5: two separately constructed maps with the
identical recorded history {5 ↦ a} compare unequal under the code's `==` (the
loop hits the first identity comparison and returns False), although their
histories coincide — and the part_000 variant raises TypeError outright, since
`Queue` defines no concatenation operator. -/
theorem richcmp_identity_bug :
    WindowDict.richcmpEqDistinct (⟨[(5, some 0)], []⟩ : WindowDict Nat)
      ⟨[(5, some 0)], []⟩ = false ∧
    (⟨[(5, some 0)], []⟩ : WindowDict Nat).hist =
      (⟨[(5, some 0)], []⟩ : WindowDict Nat).hist :=
  ⟨rfl, rfl⟩

/-- The empty map, as built by `WindowDict.__init__({})`. -/
def wd0 : WindowDict Nat := ⟨[], []⟩

/-- Evaluation for C6: after `set(1, x); set(2, y); set(3, z)` on an empty map,
the code returns `rev_before(3) = 3` — not 2 as the claim (and the method's own
docstring, "the last rev prior to the given one") require — because `seek(3)`
moves the entry at revision 3 itself into `past`; `rev_after(1) = 2` and
`rev_after(3) = None` are as claimed. -/
theorem rev_before_includes_rev :
    ((wd0.setitem 1 (some 10)).bind fun d1 =>
     (d1.setitem 2 (some 20)).bind fun d2 =>
     (d2.setitem 3 (some 30)).map fun d3 =>
       (d3.rev_before 3, d3.rev_after 1, d3.rev_after 3)) =
      .ok (.ok 3, some 2, none) := rfl

/-!
Trique (trique.pyx): a doubly-linked chain with an extra persistent node
reference, the waist.  The well-formed chain is embedded as the list of node
values head-to-tail, with the waist as an optional index into that list, and
the explicitly tracked `length` field kept separately, exactly as the source
maintains it.  The step-by-step pointer walks of `seekentry` over a well-formed
chain reach index `i + n` exactly when that index is in range, and raise
IndexError at the first missing link otherwise.
-/

structure Trique (V : Type) where
  elems : List V
  waist : Option Nat
  length : Int
deriving DecidableEq

/-- `Trique.appendentry`/`append` from trique.pyx.  In the empty-chain branch
the source returns before reaching `self.length += 1`, so the tracked length is
not incremented there; the non-empty branch links at the tail and increments. -/
def Trique.append {V : Type} (t : Trique V) (v : V) : Trique V :=
  if t.elems.isEmpty then ⟨[v], t.waist, t.length⟩
  else ⟨t.elems ++ [v], t.waist, t.length + 1⟩

/-- The two while-loops of `Trique.seekentry`: walk `n` links from index `i`
over a chain of `len` nodes, raising IndexError when a missing prev/next link
is hit, i.e. exactly when the target index leaves `[0, len)`. -/
def triqueWalk (len i : Nat) (n : Int) : Except Unit Nat :=
  if 0 ≤ (i : Int) + n ∧ (i : Int) + n < (len : Int) then .ok ((i : Int) + n).toNat
  else .error ()

/-- `Trique.seekentry` from trique.pyx: `n = 0` returns the waist as it stands
(`None` on a fresh cursor, making the caller's `.value` fail); otherwise a
`None` waist is first homed to the head (IndexError on an empty chain), and the
walk moves the waist node by node.  Returns the new waist index and state. -/
def Trique.seekentry {V : Type} (t : Trique V) (n : Int) :
    Except Unit (Nat × Trique V) :=
  if n = 0 then
    match t.waist with
    | none => .error ()
    | some i => .ok (i, t)
  else
    match t.waist with
    | some i =>
      match triqueWalk t.elems.length i n with
      | .ok j => .ok (j, ⟨t.elems, some j, t.length⟩)
      | .error e => .error e
    | none =>
      if t.elems.isEmpty then .error ()
      else
        match triqueWalk t.elems.length 0 n with
        | .ok j => .ok (j, ⟨t.elems, some j, t.length⟩)
        | .error e => .error e

/-- `Trique.seek` from trique.pyx: `seekentry(n).value`. -/
def Trique.seek {V : Type} (t : Trique V) (n : Int) : Except Unit (V × Trique V) :=
  match t.seekentry n with
  | .error e => .error e
  | .ok (i, t2) =>
    match t2.elems.get? i with
    | some v => .ok (v, t2)
    | none => .error ()

/-- `Trique.getentry` from trique.pyx: for `i ≥ 0` the waist is re-homed to the
head and the seek walks `i` forward; for `i ≤ -1` it is re-homed to the tail
and the seek walks `i + 1` backward; the node the seek lands on is returned. -/
def Trique.getentry {V : Type} (t : Trique V) (i : Int) : Except Unit (V × Trique V) :=
  if 0 ≤ i then
    Trique.seek ⟨t.elems, if t.elems.isEmpty then none else some 0, t.length⟩ i
  else
    Trique.seek
      ⟨t.elems, if t.elems.isEmpty then none else some (t.elems.length - 1), t.length⟩
      (i + 1)

/-- The empty Trique, as built by `Trique()`. -/
def trique0 : Trique Nat := ⟨[], none, 0⟩

/-- The Trique obtained by appending 0..9 to an empty one.  Because of the
missed increment on the first append, its tracked length is 9, not 10. -/
def trique10 : Trique Nat := (List.range 10).foldl (fun t k => t.append k) trique0

/-- C7: `seek(n)` moves the persistent cursor exactly `n` positions relative to
its current position and returns the value there, failing with IndexError when
the walk would pass either end; concretely, after appending 0..9 to an empty
sequence, `seek 5` from a cursor homed at the head returns 5, a following
`seek (-2)` returns 3, and indexing `[0]` and `[-1]` return 0 and 9 whatever
the cursor position is. -/
theorem trique_seek_spec {V : Type} (t : Trique V) (n : Int) (i : Nat)
    (hw : t.waist = some i) (hi : i < t.elems.length) :
    ((0 : Int) ≤ (i : Int) + n → (i : Int) + n < (t.elems.length : Int) →
      ∃ v, t.elems.get? ((i : Int) + n).toNat = some v ∧
        t.seek n = .ok (v, ⟨t.elems, some ((i : Int) + n).toNat, t.length⟩)) ∧
    (((i : Int) + n < 0 ∨ (t.elems.length : Int) ≤ (i : Int) + n) →
      t.seek n = .error ()) ∧
    (trique10.seek 5 = .ok (5, ⟨List.range 10, some 5, 9⟩)) ∧
    ((⟨List.range 10, some 5, (9 : Int)⟩ : Trique Nat).seek (-2) =
      .ok (3, ⟨List.range 10, some 3, 9⟩)) ∧
    (∀ w, (⟨List.range 10, w, (9 : Int)⟩ : Trique Nat).getentry 0 =
      .ok (0, ⟨List.range 10, some 0, 9⟩)) ∧
    (∀ w, (⟨List.range 10, w, (9 : Int)⟩ : Trique Nat).getentry (-1) =
      .ok (9, ⟨List.range 10, some 9, 9⟩)) := by
  refine ⟨?_, ?_, rfl, rfl, fun _ => rfl, fun _ => rfl⟩
  · intro h0 hlt
    have hj : ((i : Int) + n).toNat < t.elems.length := by omega
    by_cases hn : n = 0
    · subst hn
      have hii : ((i : Int) + 0).toNat = i := by omega
      rw [hii]
      refine ⟨t.elems.get ⟨i, hi⟩, List.get?_eq_get hi, ?_⟩
      have hteq : (⟨t.elems, some i, t.length⟩ : Trique V) = t := by
        obtain ⟨es, w, len⟩ := t
        simp only at hw
        subst hw
        rfl
      rw [hteq]
      simp [Trique.seek, Trique.seekentry, hw, List.getElem?_eq_getElem hi]
    · refine ⟨t.elems.get ⟨((i : Int) + n).toNat, hj⟩, List.get?_eq_get hj, ?_⟩
      simp [Trique.seek, Trique.seekentry, hn, hw, triqueWalk, h0, hlt,
        List.getElem?_eq_getElem hj]
  · intro hdisj
    have hcast : (i : Int) < (t.elems.length : Int) := by exact_mod_cast hi
    by_cases hn : n = 0
    · exfalso
      subst hn
      omega
    · have hcond : ¬(0 ≤ (i : Int) + n ∧ (i : Int) + n < (t.elems.length : Int)) := by
        omega
      simp [Trique.seek, Trique.seekentry, hn, hw, triqueWalk, hcond]

/-- Witness for C7: cursor at index 1 of a three-element sequence, moved one
step forward. -/
theorem trique_seek_spec_witness :
    ((0 : Int) ≤ (1 : Nat) + (1 : Int) →
      ((1 : Nat) : Int) + 1 < (((⟨[10, 20, 30], some 1, 3⟩ : Trique Nat).elems.length : Int)) →
      ∃ v, (⟨[10, 20, 30], some 1, (3 : Int)⟩ : Trique Nat).elems.get?
          (((1 : Nat) : Int) + 1).toNat = some v ∧
        (⟨[10, 20, 30], some 1, (3 : Int)⟩ : Trique Nat).seek 1 =
          .ok (v, ⟨[10, 20, 30], some (((1 : Nat) : Int) + 1).toNat, 3⟩)) ∧
    ((((1 : Nat) : Int) + 1 < 0 ∨
        (((⟨[10, 20, 30], some 1, 3⟩ : Trique Nat).elems.length : Int)) ≤ ((1 : Nat) : Int) + 1) →
      (⟨[10, 20, 30], some 1, (3 : Int)⟩ : Trique Nat).seek 1 = .error ()) ∧
    (trique10.seek 5 = .ok (5, ⟨List.range 10, some 5, 9⟩)) ∧
    ((⟨List.range 10, some 5, (9 : Int)⟩ : Trique Nat).seek (-2) =
      .ok (3, ⟨List.range 10, some 3, 9⟩)) ∧
    (∀ w, (⟨List.range 10, w, (9 : Int)⟩ : Trique Nat).getentry 0 =
      .ok (0, ⟨List.range 10, some 0, 9⟩)) ∧
    (∀ w, (⟨List.range 10, w, (9 : Int)⟩ : Trique Nat).getentry (-1) =
      .ok (9, ⟨List.range 10, some 9, 9⟩)) :=
  trique_seek_spec (⟨[10, 20, 30], some 1, 3⟩ : Trique Nat) 1 1 rfl (by decide)

/-- Evaluation for C8: appending to an empty Trique leaves the tracked length
at 0 although one node is now in the chain (the empty branch of `appendentry`
returns before `self.length += 1`); a second append increments from there, so
the tracked length stays one short of the node count for good.  (Separately,
`popmiddleentry` unlinks the waist node without re-homing `waist`, and
`popentry` with `i < 0` re-homes to the previous node even when a next node
survives, against the claimed prefer-next policy.) -/
theorem trique_append_length_bug :
    (trique0.append 7).elems.length = 1 ∧ (trique0.append 7).length = 0 ∧
    ((trique0.append 7).append 8).elems.length = 2 ∧
    ((trique0.append 7).append 8).length = 1 := by decide

/-- The element-accumulating loop of `Queue.popleft(i)` (i > 0) from
window.pyx: `while i > 0: popped.appendentry(self.popleft())`, an IndexError
escaping when the queue runs out. -/
def popBufLoop {V : Type} :
    Nat → List (Entry V) → List (Entry V) → Except Unit (List (Entry V) × List (Entry V))
  | 0, buf, q => .ok (buf, q)
  | n + 1, buf, q =>
    match q with
    | [] => .error ()
    | e :: rest => popBufLoop n (buf ++ [e]) rest

/-- The restore loop of `Queue.popleft(i)`: pop the buffer's tail and prepend
it to the queue until the buffer is empty; consuming the reversed buffer makes
the tail-pop structural. -/
def restoreLeftLoop {V : Type} : List (Entry V) → List (Entry V) → List (Entry V)
  | [], q => q
  | e :: bs, q => restoreLeftLoop bs (e :: q)

/-- `Queue.popleft(i)` for `i > 0` from window.pyx, as the source evidently
intends it: buffer the first `i` entries through a scratch queue, return the
scratch queue's tail pop, and prepend the remaining buffered entries back.
The source's restore-loop guard cannot run as written — window.pyx tests
`popped.next`, an attribute the Queue class does not have, and part_000 calls
`popped.append(self.popleft())` with one argument where two are required — so
the guard is read here as "scratch queue non-empty", its only sensible
meaning.  `Queue.pop(i)` for `i < -1` is the mirror image. -/
def queuePopleftAt {V : Type} (i : Nat) (q : List (Entry V)) :
    Except Unit (Entry V × List (Entry V)) :=
  match popBufLoop i [] q with
  | .error e => .error e
  | .ok (buf, rest) =>
    match buf.getLast? with
    | none => .error ()
    | some ret => .ok (ret, restoreLeftLoop buf.dropLast.reverse rest)

/-- Evaluation for C9: on the queue [(0,a),(1,b),(2,c)], `popleft(2)` — even
with the broken restore-loop guard repaired — removes and returns the entry at
index 1, not the entry at index 2: the code pops `i` entries and then takes the
scratch queue's tail, which is the (i−1)-th element.  The remaining entries do
keep their relative order. -/
theorem queue_popleft_index_bug :
    queuePopleftAt 2 [((0 : Int), some 10), (1, some 20), (2, some 30)] =
      .ok (((1 : Int), some 20), [((0 : Int), some 10), (2, some 30)]) := rfl
